import Mathlib

/-!
Shallow embedding of split_cheat_db.py.

Lines and strings are modelled as List Char; Python string helpers
(lstrip, strip, split on whitespace) are modelled below. The splitter
state mirrors the mutable locals of split_cheat_db, and the per-key
seen-set (file_to_seen_blocks) is modelled by membership in the ordered
block list it always mirrors.
-/

/-- Convenience: the character list of a string literal. -/
def str (s : String) : List Char := s.data

/-- Python default whitespace for str.split / strip (ASCII part). -/
def pyIsSpace (c : Char) : Bool :=
  c = ' ' || c = '\t' || c = '\n' || c = '\r' || c = '\x0c' || c = '\x0b'

/-- Python line.lstrip(). -/
def pyLStrip (l : List Char) : List Char := l.dropWhile pyIsSpace

/-- Python line.strip(). -/
def pyStrip (l : List Char) : List Char :=
  ((l.dropWhile pyIsSpace).reverse.dropWhile pyIsSpace).reverse

/-- Helper for pySplitWs: accumulates the current token reversed. -/
def splitWsAux : List Char → List Char → List (List Char)
  | [], acc => if acc = [] then [] else [acc.reverse]
  | c :: rest, acc =>
      if pyIsSpace c then
        if acc = [] then splitWsAux rest []
        else acc.reverse :: splitWsAux rest []
      else splitWsAux rest (c :: acc)

/-- Python s.split() with no argument: split on whitespace runs, no empty tokens. -/
def pySplitWs (l : List Char) : List (List Char) := splitWsAux l []

/-- The character class kept by re.sub on line 20 of the source:
[A-Za-z0-9._-]. -/
def isSafeChar (c : Char) : Bool :=
  ('A' ≤ c && c ≤ 'Z') || ('a' ≤ c && c ≤ 'z') || ('0' ≤ c && c ≤ '9') ||
    c = '.' || c = '_' || c = '-'

/-- sanitize_s_code_to_filename from the source: split the stripped line on
whitespace, require a second token, drop hyphens, keep only safe characters,
fail on empty, else append ".ini". -/
def sanitize_s_code_to_filename (s_line : List Char) : Option (List Char) :=
  match pySplitWs (pyStrip s_line) with
  | _ :: game_code :: _ =>
      let no_hyphen := game_code.filter (fun c => !(c = '-'))
      let game_code_safe := no_hyphen.filter isSafeChar
      if game_code_safe = [] then none
      else some (game_code_safe ++ str ".ini")
  | _ => none

/-- Decimal digit character, as used to model Python format {n:04}. -/
def digitChar (n : Nat) : Char := Char.ofNat (48 + n % 10)

/-- Decimal digits of a natural number, most significant first (fueled). -/
def natDigitsAux : Nat → Nat → List Char
  | 0, _ => []
  | fuel + 1, n =>
      if n < 10 then [digitChar n]
      else natDigitsAux fuel (n / 10) ++ [digitChar (n % 10)]

/-- Decimal digits of a natural number, most significant first. -/
def natDigits (n : Nat) : List Char := natDigitsAux (n + 1) n

/-- Python format {n:04}: decimal digits left-padded with zeros to width 4. -/
def pad4 (n : Nat) : List Char :=
  List.replicate (4 - (natDigits n).length) '0' ++ natDigits n

/-- The synthetic filename UNKNOWN_<seq>.ini built on line 54 of the source. -/
def unknownName (i : Nat) : List Char := str "UNKNOWN_" ++ pad4 i ++ str ".ini"

/-- The mutable locals of split_cheat_db during the line loop. -/
structure SplitState where
  current_block_lines : List (List Char)
  current_filename : Option (List Char)
  unknown_index : Nat
  file_to_blocks : List (List Char × List (List Char))
deriving Repr, DecidableEq

/-- Ordered-map update: find the key (first-seen key order preserved),
create an empty group if absent, and append the block text unless the
group already holds it. This is lines 57-62 of the source, with the
seen-set modelled by membership in the ordered list it mirrors. -/
def insertBlock : List (List Char × List (List Char)) → List Char → List Char →
    List (List Char × List (List Char))
  | [], k, b => [(k, [b])]
  | (k0, bs) :: rest, k, b =>
      if k0 = k then (k0, if bs.contains b then bs else bs ++ [b]) :: rest
      else (k0, bs) :: insertBlock rest k b

/-- Final key and next unknown counter for a finalizing block
(lines 52-55 of the source). -/
def finalName (cf : Option (List Char)) (idx : Nat) : List Char × Nat :=
  match cf with
  | some f => if f = [] then (unknownName idx, idx + 1) else (f, idx)
  | none => (unknownName idx, idx + 1)

/-- add_block_to_map from the source: do nothing on an empty buffer,
otherwise join the buffered lines, resolve the final filename (consuming
the unknown counter only here), insert, and clear buffer and filename. -/
def add_block_to_map (st : SplitState) : SplitState :=
  if st.current_block_lines = [] then st
  else
    let block_text := List.flatten st.current_block_lines
    let fn := finalName st.current_filename st.unknown_index
    { current_block_lines := []
      current_filename := none
      unknown_index := fn.2
      file_to_blocks := insertBlock st.file_to_blocks fn.1 block_text }

/-- Marker test of line 71 of the source: the lstripped line starts with _S. -/
def isMarkerLine (line : List Char) : Bool :=
  List.isPrefixOf (str "_S") (pyLStrip line)

/-- The body of the for loop (lines 68-80 of the source). -/
def process_line (st : SplitState) (line : List Char) : SplitState :=
  let stripped_lead := pyLStrip line
  if List.isPrefixOf (str "_S") stripped_lead then
    let st1 := add_block_to_map st
    { st1 with
      current_block_lines := [line]
      current_filename := sanitize_s_code_to_filename stripped_lead }
  else
    if st.current_filename.isSome then
      { st with current_block_lines := st.current_block_lines ++ [line] }
    else st

/-- The initial values of the mutable locals (lines 40-45 of the source). -/
def initState : SplitState :=
  { current_block_lines := []
    current_filename := none
    unknown_index := 1
    file_to_blocks := [] }

/-- The whole line loop followed by the trailing add_block_to_map call. -/
def runSplit (lines : List (List Char)) : SplitState :=
  add_block_to_map (lines.foldl process_line initState)

/-- The ordered key-to-blocks mapping produced for a list of input lines. -/
def splitMap (lines : List (List Char)) : List (List Char × List (List Char)) :=
  (runSplit lines).file_to_blocks

/-- The filesystem state split_cheat_db interacts with: existence of the
input, its decoded lines, the output directory, and the files inside the
output directory as an ordered path-to-content map. -/
structure FS where
  inputExists : Bool
  inputPath : List Char
  inputLines : List (List Char)
  outputDirExists : Bool
  files : List (List Char × List Char)
deriving Repr, DecidableEq

/-- Writing a file (open in "wb" mode on line 88 of the source): the
content at the path is replaced, never appended to. -/
def writeFileFs : List (List Char × List Char) → List Char → List Char →
    List (List Char × List Char)
  | [], n, c => [(n, c)]
  | (n0, c0) :: rest, n, c =>
      if n0 = n then (n, c) :: rest else (n0, c0) :: writeFileFs rest n c

/-- The output loop of lines 86-90 of the source: write one file per key,
content the concatenation of the deduplicated blocks. -/
def writeAll (fsFiles : List (List Char × List Char)) :
    List (List Char × List (List Char)) → List (List Char × List Char)
  | [] => fsFiles
  | (k, bs) :: rest => writeAll (writeFileFs fsFiles k (List.flatten bs)) rest

/-- split_cheat_db from the source, over the filesystem model: missing
input raises FileNotFoundError before anything else happens; otherwise the
output directory is created, the split runs, each group is written as
<key>.ini, and the number of files written is returned. -/
def split_cheat_db (fs : FS) : FS × Except (List Char) Nat :=
  if fs.inputExists = false then
    (fs, Except.error (str "Input file not found: " ++ fs.inputPath))
  else
    let m := splitMap fs.inputLines
    ({ fs with outputDirExists := true, files := writeAll fs.files m },
     Except.ok m.length)

/-- Content lookup by path in the modelled output directory. -/
def lookupFs : List (List Char × List Char) → List Char → Option (List Char)
  | [], _ => none
  | (n0, c0) :: rest, n => if n0 = n then some c0 else lookupFs rest n

/-- Group lookup by key in the ordered key-to-blocks mapping. -/
def lookupMap : List (List Char × List (List Char)) → List Char →
    Option (List (List Char))
  | [], _ => none
  | (k0, bs) :: rest, k => if k0 = k then some bs else lookupMap rest k

/-- The content the output loop leaves at a path, if the loop writes it:
the last write wins. -/
def lastWrite : List (List Char × List (List Char)) → List Char →
    Option (List Char)
  | [], _ => none
  | (k0, bs) :: rest, k =>
      match lastWrite rest k with
      | some c => some c
      | none => if k = k0 then some (List.flatten bs) else none

/-- Key derivation as worded in the spec (deriveKey): split the trimmed
marker line on whitespace; fewer than 2 tokens gives null; otherwise take
the second token, remove hyphens, keep only characters in
A-Z, a-z, 0-9, dot, underscore, hyphen; empty gives null. Stated
separately from sanitize_s_code_to_filename so the two can be compared. -/
def deriveKey (markerLine : List Char) : Option (List Char) :=
  let tokens := pySplitWs markerLine
  if tokens.length < 2 then none
  else
    let second := tokens.getD 1 []
    let noHyphens := second.filter (fun c => !(c = '-'))
    let kept := noHyphens.filter (fun c =>
      (('A' ≤ c && c ≤ 'Z') || ('a' ≤ c && c ≤ 'z') || ('0' ≤ c && c ≤ '9')) ||
        (c = '.' || c = '_' || c = '-'))
    if kept = [] then none else some kept

/-- The block-level view of the same loop: the buffer of the open block,
whether its marker line yielded a filename, and the finalized buffers in
finalization order. Used to state which input lines end up inside blocks. -/
structure SegState where
  seg_buf : List (List Char)
  seg_keyed : Bool
  segs : List (List (List Char))
deriving Repr, DecidableEq

/-- Finalization at the block level: a nonempty buffer is appended to the
list of finalized blocks and cleared. -/
def seg_finalize (st : SegState) : SegState :=
  if st.seg_buf = [] then st
  else { seg_buf := [], seg_keyed := false, segs := st.segs ++ [st.seg_buf] }

/-- The loop body at the block level, mirroring process_line: a marker
line finalizes the open block and opens a new one; any other line is
appended only when the open block has a filename. -/
def seg_step (st : SegState) (line : List Char) : SegState :=
  if List.isPrefixOf (str "_S") (pyLStrip line) then
    let st1 := seg_finalize st
    { st1 with
      seg_buf := [line]
      seg_keyed := (sanitize_s_code_to_filename (pyLStrip line)).isSome }
  else
    if st.seg_keyed then { st with seg_buf := st.seg_buf ++ [line] }
    else st

/-- Initial block-level state. -/
def segInit : SegState := { seg_buf := [], seg_keyed := false, segs := [] }

/-- The finalized blocks of a run, each a list of the input lines it holds. -/
def blockSegments (lines : List (List Char)) : List (List (List Char)) :=
  (seg_finalize (lines.foldl seg_step segInit)).segs

/-- All block texts stored anywhere in the key-to-blocks mapping. -/
def allTexts : List (List Char × List (List Char)) → List (List Char)
  | [] => []
  | (_, bs) :: rest => bs ++ allTexts rest

/-! ### Step lemmas for the line loop -/

theorem process_line_marker (st : SplitState) (line : List Char)
    (h : isMarkerLine line = true) :
    process_line st line =
      { add_block_to_map st with
        current_block_lines := [line]
        current_filename := sanitize_s_code_to_filename (pyLStrip line) } := by
  unfold isMarkerLine at h
  unfold process_line
  simp [h]

theorem process_line_skip (st : SplitState) (line : List Char)
    (h : isMarkerLine line = false) (h2 : st.current_filename = none) :
    process_line st line = st := by
  unfold isMarkerLine at h
  unfold process_line
  simp [h, h2]

theorem process_line_append (st : SplitState) (line : List Char) (f : List Char)
    (h : isMarkerLine line = false) (h2 : st.current_filename = some f) :
    process_line st line =
      { st with current_block_lines := st.current_block_lines ++ [line] } := by
  unfold isMarkerLine at h
  unfold process_line
  simp [h, h2]

theorem foldl_skip (pre : List (List Char)) (st : SplitState)
    (h : ∀ l ∈ pre, isMarkerLine l = false) (h2 : st.current_filename = none) :
    List.foldl process_line st pre = st := by
  induction pre with
  | nil => rfl
  | cons l rest ih =>
      rw [List.foldl_cons, process_line_skip st l (h l (by simp)) h2]
      exact ih fun x hx => h x (by simp [hx])

theorem foldl_append_body (body : List (List Char)) (st : SplitState) (f : List Char)
    (h : ∀ l ∈ body, isMarkerLine l = false) (h2 : st.current_filename = some f) :
    List.foldl process_line st body =
      { st with current_block_lines := st.current_block_lines ++ body } := by
  induction body generalizing st with
  | nil => simp
  | cons l rest ih =>
      rw [List.foldl_cons, process_line_append st l f (h l (by simp)) h2]
      rw [ih _ (fun x hx => h x (by simp [hx])) (by simp [h2])]
      simp

theorem add_block_empty (st : SplitState) (h : st.current_block_lines = []) :
    add_block_to_map st = st := by
  unfold add_block_to_map
  simp [h]

theorem add_block_keyed (st : SplitState) (f : List Char)
    (h : st.current_block_lines ≠ []) (h2 : st.current_filename = some f)
    (h3 : f ≠ []) :
    add_block_to_map st =
      { current_block_lines := []
        current_filename := none
        unknown_index := st.unknown_index
        file_to_blocks := insertBlock st.file_to_blocks f
          (List.flatten st.current_block_lines) } := by
  unfold add_block_to_map finalName
  simp [h, h2, h3]

theorem add_block_unresolved (st : SplitState)
    (h : st.current_block_lines ≠ []) (h2 : st.current_filename = none) :
    add_block_to_map st =
      { current_block_lines := []
        current_filename := none
        unknown_index := st.unknown_index + 1
        file_to_blocks := insertBlock st.file_to_blocks
          (unknownName st.unknown_index)
          (List.flatten st.current_block_lines) } := by
  unfold add_block_to_map finalName
  simp [h, h2]

/-! ### Facts about sanitize_s_code_to_filename -/

theorem sanitize_ne_nil (s k : List Char)
    (h : sanitize_s_code_to_filename s = some k) : k ≠ [] := by
  unfold sanitize_s_code_to_filename at h
  cases hp : pySplitWs (pyStrip s) with
  | nil => rw [hp] at h; exact absurd h (by simp)
  | cons a tl =>
    cases tl with
    | nil => rw [hp] at h; exact absurd h (by simp)
    | cons gc tl2 =>
      rw [hp] at h
      simp only [] at h
      split at h
      · exact absurd h (by simp)
      · rw [Option.some_inj] at h
        subst h
        simp [str]

theorem sanitize_all_safe (s k : List Char)
    (h : sanitize_s_code_to_filename s = some k) : k.all isSafeChar = true := by
  unfold sanitize_s_code_to_filename at h
  cases hp : pySplitWs (pyStrip s) with
  | nil => rw [hp] at h; exact absurd h (by simp)
  | cons a tl =>
    cases tl with
    | nil => rw [hp] at h; exact absurd h (by simp)
    | cons gc tl2 =>
      rw [hp] at h
      simp only [] at h
      split at h
      · exact absurd h (by simp)
      · rw [Option.some_inj] at h
        subst h
        rw [List.all_append, Bool.and_eq_true]
        constructor
        · rw [List.all_eq_true]
          intro x hx
          exact (List.mem_filter.mp hx).2
        · decide

/-! ### Facts about insertBlock -/

theorem insertBlock_mem (m : List (List Char × List (List Char)))
    (k b : List Char) (bs : List (List Char))
    (h : lookupMap m k = some bs) (hb : b ∈ bs) :
    insertBlock m k b = m := by
  induction m with
  | nil => simp [lookupMap] at h
  | cons kb rest ih =>
      obtain ⟨k0, bs0⟩ := kb
      by_cases hk : k0 = k
      · subst hk
        simp [lookupMap] at h
        subst h
        simp [insertBlock, hb]
      · simp only [lookupMap, if_neg hk] at h
        simp only [insertBlock, if_neg hk]
        rw [ih h]

theorem insertBlock_append (m : List (List Char × List (List Char)))
    (k b : List Char) (bs : List (List Char))
    (h : lookupMap m k = some bs) (hb : b ∉ bs) :
    lookupMap (insertBlock m k b) k = some (bs ++ [b]) := by
  induction m with
  | nil => simp [lookupMap] at h
  | cons kb rest ih =>
      obtain ⟨k0, bs0⟩ := kb
      by_cases hk : k0 = k
      · subst hk
        simp [lookupMap] at h
        subst h
        simp [insertBlock, lookupMap, hb]
      · simp only [lookupMap, if_neg hk] at h
        simp only [insertBlock, if_neg hk, lookupMap]
        exact ih h

theorem insertBlock_new (m : List (List Char × List (List Char)))
    (k b : List Char) (h : lookupMap m k = none) :
    insertBlock m k b = m ++ [(k, [b])] := by
  induction m with
  | nil => simp [insertBlock]
  | cons kb rest ih =>
      obtain ⟨k0, bs0⟩ := kb
      unfold lookupMap at h
      unfold insertBlock
      by_cases hk : k0 = k
      · simp [hk] at h
      · simp only [if_neg hk] at h ⊢
        rw [ih h]
        simp

theorem insertBlock_keys (m : List (List Char × List (List Char)))
    (k b : List Char) :
    (insertBlock m k b).map Prod.fst =
      if k ∈ m.map Prod.fst then m.map Prod.fst
      else m.map Prod.fst ++ [k] := by
  induction m with
  | nil => simp [insertBlock]
  | cons kb rest ih =>
      obtain ⟨k0, bs0⟩ := kb
      unfold insertBlock
      by_cases hk : k0 = k
      · simp [hk]
      · have hne : ¬ k = k0 := fun hh => hk hh.symm
        simp only [if_neg hk, List.map_cons, ih]
        by_cases hmem : k ∈ rest.map Prod.fst
        · simp [hmem, hne]
        · simp [hmem, hne]

theorem insertBlock_nodup (m : List (List Char × List (List Char)))
    (k b : List Char) (h : ∀ p ∈ m, (Prod.snd p).Nodup) :
    ∀ p ∈ insertBlock m k b, (Prod.snd p).Nodup := by
  induction m with
  | nil =>
      intro p hp
      simp [insertBlock] at hp
      subst hp
      simp
  | cons kb rest ih =>
      obtain ⟨k0, bs0⟩ := kb
      intro p hp
      by_cases hk : k0 = k
      · subst hk
        by_cases hc : bs0.contains b = true
        · have hm : b ∈ bs0 := by simpa using hc
          simp [insertBlock, hm] at hp
          rcases hp with hp | hp
          · subst hp
            exact h (k0, bs0) (by simp)
          · exact h p (by simp [hp])
        · have hm : b ∉ bs0 := by simpa using hc
          simp [insertBlock, hm] at hp
          rcases hp with hp | hp
          · subst hp
            have hb0 : bs0.Nodup := h (k0, bs0) (by simp)
            show (bs0 ++ [b]).Nodup
            rw [← List.concat_eq_append]
            exact List.Nodup.concat hm hb0
          · exact h p (by simp [hp])
      · simp [insertBlock, hk] at hp
        rcases hp with hp | hp
        · subst hp
          exact h (k0, bs0) (by simp)
        · exact ih (fun q hq => h q (by simp [hq])) p hp

theorem mem_allTexts_insertBlock (m : List (List Char × List (List Char)))
    (k b t : List Char) (h : t ∈ allTexts (insertBlock m k b)) :
    t ∈ allTexts m ∨ t = b := by
  induction m with
  | nil =>
      simp [insertBlock, allTexts] at h
      simp [h]
  | cons kb rest ih =>
      obtain ⟨k0, bs0⟩ := kb
      by_cases hk : k0 = k
      · subst hk
        by_cases hc : bs0.contains b = true
        · have hm : b ∈ bs0 := by simpa using hc
          have hins : insertBlock ((k0, bs0) :: rest) k0 b = (k0, bs0) :: rest := by
            simp [insertBlock, hm]
          rw [hins] at h
          exact Or.inl h
        · have hm : b ∉ bs0 := by simpa using hc
          have hins : insertBlock ((k0, bs0) :: rest) k0 b =
              (k0, bs0 ++ [b]) :: rest := by
            simp [insertBlock, hm]
          rw [hins] at h
          simp only [allTexts] at h ⊢
          rw [List.mem_append] at h ⊢
          rcases h with h | h
          · rw [List.mem_append] at h
            rcases h with h | h
            · exact Or.inl (Or.inl h)
            · simp at h
              exact Or.inr h
          · exact Or.inl (Or.inr h)
      · have hins : insertBlock ((k0, bs0) :: rest) k b =
            (k0, bs0) :: insertBlock rest k b := by
          simp [insertBlock, hk]
        rw [hins] at h
        simp only [allTexts] at h ⊢
        rw [List.mem_append] at h ⊢
        rcases h with h | h
        · exact Or.inl (Or.inl h)
        · rcases ih h with h2 | h2
          · exact Or.inl (Or.inr h2)
          · exact Or.inr h2

theorem insertBlock_safe (m : List (List Char × List (List Char)))
    (k b : List Char) (h : ∀ p ∈ m, (Prod.fst p).all isSafeChar = true)
    (hk : k.all isSafeChar = true) :
    ∀ p ∈ insertBlock m k b, (Prod.fst p).all isSafeChar = true := by
  induction m with
  | nil =>
      intro p hp
      simp [insertBlock] at hp
      subst hp
      exact hk
  | cons kb rest ih =>
      obtain ⟨k0, bs0⟩ := kb
      intro p hp
      by_cases hk0 : k0 = k
      · subst hk0
        by_cases hc : bs0.contains b = true
        · have hm : b ∈ bs0 := by simpa using hc
          simp [insertBlock, hm] at hp
          rcases hp with hp | hp
          · subst hp
            exact hk
          · exact h p (by simp [hp])
        · have hm : b ∉ bs0 := by simpa using hc
          simp [insertBlock, hm] at hp
          rcases hp with hp | hp
          · subst hp
            exact hk
          · exact h p (by simp [hp])
      · simp [insertBlock, hk0] at hp
        rcases hp with hp | hp
        · subst hp
          exact h (k0, bs0) (by simp)
        · exact ih (fun q hq => h q (by simp [hq])) p hp

/-! ### Characters of produced filenames -/

theorem isSafeChar_digitChar (n : Nat) : isSafeChar (digitChar n) = true := by
  unfold digitChar
  have h : n % 10 < 10 := Nat.mod_lt _ (by omega)
  generalize hr : n % 10 = r at h ⊢
  interval_cases r <;> decide

theorem natDigitsAux_all_safe (fuel n : Nat) :
    (natDigitsAux fuel n).all isSafeChar = true := by
  induction fuel generalizing n with
  | zero => rfl
  | succ fuel ih =>
      rw [natDigitsAux]
      by_cases h : n < 10
      · simp [h, isSafeChar_digitChar]
      · rw [if_neg h, List.all_append]
        simp [ih, isSafeChar_digitChar]

theorem replicate_zero_all_safe (k : Nat) :
    (List.replicate k '0').all isSafeChar = true := by
  rw [List.all_eq_true]
  intro x hx
  rw [List.eq_of_mem_replicate hx]
  decide

theorem unknownName_all_safe (i : Nat) : (unknownName i).all isSafeChar = true := by
  unfold unknownName pad4 natDigits
  have h1 : (str "UNKNOWN_").all isSafeChar = true := by decide
  have h2 : (str ".ini").all isSafeChar = true := by decide
  simp [List.all_append, h1, h2, replicate_zero_all_safe, natDigitsAux_all_safe]
  right
  decide

theorem finalName_safe (cf : Option (List Char)) (idx : Nat)
    (h : ∀ f, cf = some f → f.all isSafeChar = true) :
    (finalName cf idx).1.all isSafeChar = true := by
  unfold finalName
  cases cf with
  | none => exact unknownName_all_safe idx
  | some f =>
      by_cases hfe : f = []
      · simp only [if_pos hfe]
        exact unknownName_all_safe idx
      · simp only [if_neg hfe]
        exact h f rfl

/-! ### Invariants carried through the loop -/

theorem add_block_nodup (st : SplitState)
    (h : ∀ p ∈ st.file_to_blocks, (Prod.snd p).Nodup) :
    ∀ p ∈ (add_block_to_map st).file_to_blocks, (Prod.snd p).Nodup := by
  unfold add_block_to_map
  by_cases hb : st.current_block_lines = []
  · simpa [hb] using h
  · simp only [if_neg hb]
    exact insertBlock_nodup _ _ _ h

theorem process_line_nodup (st : SplitState) (line : List Char)
    (h : ∀ p ∈ st.file_to_blocks, (Prod.snd p).Nodup) :
    ∀ p ∈ (process_line st line).file_to_blocks, (Prod.snd p).Nodup := by
  unfold process_line
  by_cases hm : List.isPrefixOf (str "_S") (pyLStrip line)
  · simp only [if_pos hm]
    exact add_block_nodup st h
  · simp only [if_neg hm]
    by_cases hf : st.current_filename.isSome
    · simpa [hf] using h
    · simpa [hf] using h

theorem foldl_nodup (lines : List (List Char)) (st : SplitState)
    (h : ∀ p ∈ st.file_to_blocks, (Prod.snd p).Nodup) :
    ∀ p ∈ (List.foldl process_line st lines).file_to_blocks, (Prod.snd p).Nodup := by
  induction lines generalizing st with
  | nil => exact h
  | cons l rest ih => exact ih _ (process_line_nodup st l h)

theorem add_block_safe (st : SplitState)
    (h1 : ∀ p ∈ st.file_to_blocks, (Prod.fst p).all isSafeChar = true)
    (h2 : ∀ f, st.current_filename = some f → f.all isSafeChar = true) :
    ∀ p ∈ (add_block_to_map st).file_to_blocks,
      (Prod.fst p).all isSafeChar = true := by
  unfold add_block_to_map
  by_cases hb : st.current_block_lines = []
  · simpa [hb] using h1
  · simp only [if_neg hb]
    exact insertBlock_safe _ _ _ h1 (finalName_safe _ _ h2)

theorem process_line_safe (st : SplitState) (line : List Char)
    (h1 : ∀ p ∈ st.file_to_blocks, (Prod.fst p).all isSafeChar = true)
    (h2 : ∀ f, st.current_filename = some f → f.all isSafeChar = true) :
    (∀ p ∈ (process_line st line).file_to_blocks,
      (Prod.fst p).all isSafeChar = true) ∧
    (∀ f, (process_line st line).current_filename = some f →
      f.all isSafeChar = true) := by
  unfold process_line
  by_cases hm : List.isPrefixOf (str "_S") (pyLStrip line)
  · simp only [if_pos hm]
    constructor
    · exact add_block_safe st h1 h2
    · intro f hf
      exact sanitize_all_safe _ f hf
  · simp only [if_neg hm]
    by_cases hf : st.current_filename.isSome = true
    · simp only [hf, if_pos rfl]
      exact ⟨h1, h2⟩
    · simp only [hf]
      simp only [Bool.false_eq_true, if_false]
      exact ⟨h1, h2⟩

theorem foldl_safe (lines : List (List Char)) (st : SplitState)
    (h1 : ∀ p ∈ st.file_to_blocks, (Prod.fst p).all isSafeChar = true)
    (h2 : ∀ f, st.current_filename = some f → f.all isSafeChar = true) :
    (∀ p ∈ (List.foldl process_line st lines).file_to_blocks,
      (Prod.fst p).all isSafeChar = true) ∧
    (∀ f, (List.foldl process_line st lines).current_filename = some f →
      f.all isSafeChar = true) := by
  induction lines generalizing st with
  | nil => exact ⟨h1, h2⟩
  | cons l rest ih =>
      obtain ⟨g1, g2⟩ := process_line_safe st l h1 h2
      exact ih _ g1 g2

/-! ### Output-directory writes -/

theorem lookupFs_writeFileFs (F : List (List Char × List Char))
    (n c k : List Char) :
    lookupFs (writeFileFs F n c) k =
      if n = k then some c else lookupFs F k := by
  induction F with
  | nil =>
      by_cases h : n = k
      · simp [writeFileFs, lookupFs, h]
      · simp [writeFileFs, lookupFs, h]
  | cons p rest ih =>
      obtain ⟨n0, c0⟩ := p
      by_cases h0 : n0 = n
      · subst h0
        by_cases hk : n0 = k
        · simp [writeFileFs, lookupFs, hk]
        · simp [writeFileFs, lookupFs, hk]
      · by_cases hk : n0 = k
        · subst hk
          have hnk : ¬ n = n0 := fun hh => h0 hh.symm
          simp [writeFileFs, lookupFs, h0, hnk]
        · simp [writeFileFs, lookupFs, h0, hk, ih]

theorem lookupFs_writeAll (m : List (List Char × List (List Char)))
    (F : List (List Char × List Char)) (k : List Char) :
    lookupFs (writeAll F m) k =
      match lastWrite m k with
      | some c => some c
      | none => lookupFs F k := by
  induction m generalizing F with
  | nil => simp [writeAll, lastWrite]
  | cons p rest ih =>
      obtain ⟨k0, bs⟩ := p
      simp only [writeAll, lastWrite]
      rw [ih]
      cases hlw : lastWrite rest k with
      | some c => simp [hlw]
      | none =>
          simp only []
          rw [lookupFs_writeFileFs]
          by_cases hk : k = k0
          · subst hk
            simp
          · have hnk : ¬ k0 = k := fun hh => hk hh.symm
            simp [hk, hnk]

theorem lookupFs_writeAll_twice (m : List (List Char × List (List Char)))
    (F : List (List Char × List Char)) (k : List Char) :
    lookupFs (writeAll (writeAll F m) m) k = lookupFs (writeAll F m) k := by
  rw [lookupFs_writeAll, lookupFs_writeAll]
  cases lastWrite m k <;> rfl

/-! ### Block segments: which lines end up inside blocks -/

/-- All lines currently accounted for at the block level: lines inside
finalized blocks followed by the open buffer. -/
def segVal (st : SegState) : List (List Char) := st.segs.flatten ++ st.seg_buf

theorem seg_finalize_buf (st : SegState) : (seg_finalize st).seg_buf = [] := by
  unfold seg_finalize
  by_cases h : st.seg_buf = []
  · simp [h]
  · simp [h]

theorem seg_finalize_segs_flatten (st : SegState) :
    (seg_finalize st).segs.flatten = segVal st := by
  unfold seg_finalize segVal
  by_cases h : st.seg_buf = []
  · simp [h]
  · simp [h]

theorem seg_step_val (st : SegState) (line : List Char) :
    segVal (seg_step st line) = segVal st ++ [line] ∨
      segVal (seg_step st line) = segVal st := by
  unfold seg_step
  by_cases hm : List.isPrefixOf (str "_S") (pyLStrip line)
  · left
    simp only [if_pos hm]
    show (seg_finalize st).segs.flatten ++ [line] = segVal st ++ [line]
    rw [seg_finalize_segs_flatten]
  · simp only [if_neg hm]
    by_cases hk : st.seg_keyed = true
    · left
      simp only [hk, if_pos rfl]
      show st.segs.flatten ++ (st.seg_buf ++ [line]) = segVal st ++ [line]
      unfold segVal
      rw [List.append_assoc]
    · right
      simp only [hk]
      simp only [Bool.false_eq_true, if_false]

theorem foldl_seg_val (lines : List (List Char)) (st : SegState) :
    List.Sublist (segVal (List.foldl seg_step st lines)) (segVal st ++ lines) := by
  induction lines generalizing st with
  | nil => simp
  | cons l rest ih =>
      rw [List.foldl_cons]
      rcases seg_step_val st l with h | h
      · have h2 := ih (seg_step st l)
        rw [h] at h2
        simpa [List.append_assoc] using h2
      · have h2 := ih (seg_step st l)
        rw [h] at h2
        refine h2.trans ?_
        apply List.Sublist.append_left
        exact List.sublist_cons_self l rest

theorem blockSegments_flatten_sublist (lines : List (List Char)) :
    List.Sublist (blockSegments lines).flatten lines := by
  unfold blockSegments
  rw [seg_finalize_segs_flatten]
  have h := foldl_seg_val lines segInit
  have h2 : segVal segInit = [] := rfl
  rw [h2] at h
  simpa using h

theorem seg_step_skip (st : SegState) (line : List Char)
    (h : isMarkerLine line = false) (h2 : st.seg_keyed = false) :
    seg_step st line = st := by
  unfold isMarkerLine at h
  unfold seg_step
  simp [h, h2]

theorem foldl_seg_skip (pre : List (List Char)) (st : SegState)
    (h : ∀ l ∈ pre, isMarkerLine l = false) (h2 : st.seg_keyed = false) :
    List.foldl seg_step st pre = st := by
  induction pre with
  | nil => rfl
  | cons l rest ih =>
      rw [List.foldl_cons, seg_step_skip st l (h l (by simp)) h2]
      exact ih fun x hx => h x (by simp [hx])

theorem seg_sim_finalize (st : SplitState) (sst : SegState)
    (hbuf : sst.seg_buf = st.current_block_lines)
    (htex : ∀ t ∈ allTexts st.file_to_blocks, ∃ seg ∈ sst.segs, t = seg.flatten) :
    ∀ t ∈ allTexts (add_block_to_map st).file_to_blocks,
      ∃ seg ∈ (seg_finalize sst).segs, t = seg.flatten := by
  intro t ht
  by_cases hb : st.current_block_lines = []
  · rw [add_block_empty st hb] at ht
    have hfin : seg_finalize sst = sst := by
      unfold seg_finalize
      simp [hbuf, hb]
    rw [hfin]
    exact htex t ht
  · unfold add_block_to_map at ht
    rw [if_neg hb] at ht
    simp only [] at ht
    rcases mem_allTexts_insertBlock _ _ _ _ ht with h | h
    · obtain ⟨seg, hseg, hts⟩ := htex t h
      refine ⟨seg, ?_, hts⟩
      unfold seg_finalize
      rw [if_neg (by rw [hbuf]; exact hb)]
      simp [hseg]
    · refine ⟨st.current_block_lines, ?_, h⟩
      unfold seg_finalize
      rw [if_neg (by rw [hbuf]; exact hb)]
      simp [hbuf]

theorem seg_sim_step (st : SplitState) (sst : SegState) (line : List Char)
    (hbuf : sst.seg_buf = st.current_block_lines)
    (hkey : sst.seg_keyed = st.current_filename.isSome)
    (htex : ∀ t ∈ allTexts st.file_to_blocks, ∃ seg ∈ sst.segs, t = seg.flatten) :
    (seg_step sst line).seg_buf = (process_line st line).current_block_lines ∧
    (seg_step sst line).seg_keyed =
      (process_line st line).current_filename.isSome ∧
    (∀ t ∈ allTexts (process_line st line).file_to_blocks,
      ∃ seg ∈ (seg_step sst line).segs, t = seg.flatten) := by
  by_cases hm : List.isPrefixOf (str "_S") (pyLStrip line)
  · unfold seg_step process_line
    simp only [if_pos hm]
    exact ⟨by simp, by simp, seg_sim_finalize st sst hbuf htex⟩
  · unfold seg_step process_line
    simp only [if_neg hm]
    by_cases hk : st.current_filename.isSome = true
    · have hk2 : sst.seg_keyed = true := by rw [hkey]; exact hk
      simp only [if_pos hk, if_pos hk2]
      exact ⟨by rw [hbuf], hkey, htex⟩
    · have hk2 : ¬ sst.seg_keyed = true := by rw [hkey]; exact hk
      simp only [if_neg hk, if_neg hk2]
      exact ⟨hbuf, hkey, htex⟩

theorem seg_sim_foldl (lines : List (List Char)) (st : SplitState) (sst : SegState)
    (hbuf : sst.seg_buf = st.current_block_lines)
    (hkey : sst.seg_keyed = st.current_filename.isSome)
    (htex : ∀ t ∈ allTexts st.file_to_blocks, ∃ seg ∈ sst.segs, t = seg.flatten) :
    (List.foldl seg_step sst lines).seg_buf =
      (List.foldl process_line st lines).current_block_lines ∧
    (List.foldl seg_step sst lines).seg_keyed =
      (List.foldl process_line st lines).current_filename.isSome ∧
    (∀ t ∈ allTexts (List.foldl process_line st lines).file_to_blocks,
      ∃ seg ∈ (List.foldl seg_step sst lines).segs, t = seg.flatten) := by
  induction lines generalizing st sst with
  | nil => exact ⟨hbuf, hkey, htex⟩
  | cons l rest ih =>
      obtain ⟨g1, g2, g3⟩ := seg_sim_step st sst l hbuf hkey htex
      exact ih (process_line st l) (seg_step sst l) g1 g2 g3

theorem splitMap_texts_from_segments (lines : List (List Char)) :
    ∀ t ∈ allTexts (splitMap lines),
      ∃ seg ∈ blockSegments lines, t = seg.flatten := by
  have hsim := seg_sim_foldl lines initState segInit rfl rfl (by simp [allTexts, initState])
  unfold splitMap runSplit blockSegments
  exact seg_sim_finalize _ _ hsim.1 hsim.2.2

/-! ### Remaining shared helpers -/

theorem splitMap_nodup (lines : List (List Char)) :
    ∀ p ∈ splitMap lines, (Prod.snd p).Nodup := by
  unfold splitMap runSplit
  exact add_block_nodup _ (foldl_nodup lines initState (by simp [initState]))

theorem splitMap_no_marker (lines : List (List Char))
    (h : ∀ l ∈ lines, isMarkerLine l = false) : splitMap lines = [] := by
  unfold splitMap runSplit
  rw [foldl_skip lines initState h rfl, add_block_empty initState rfl]
  rfl

theorem split_cheat_db_ok (fs : FS) (h : fs.inputExists = true) :
    split_cheat_db fs =
      ({ fs with
          outputDirExists := true
          files := writeAll fs.files (splitMap fs.inputLines) },
       Except.ok (splitMap fs.inputLines).length) := by
  unfold split_cheat_db
  rw [if_neg (by rw [h]; simp)]

/-! ### Claim theorems -/

/-- C1, counterexample: the claim says a non-marker line read while a block
is open is appended to the buffer even when key derivation returned null.
On the input lines "_S" and "body", the code opens a block at "_S" with no
derivable key, then discards "body" (the line 79 guard tests
current_filename, not the buffer), so the finalized block text is just the
marker line, not the concatenation of marker line and body line. -/
theorem keyless_marker_drops_body :
    splitMap [str "_S\n", str "body\n"] =
      [(str "UNKNOWN_0001.ini", [str "_S\n"])] ∧
    str "_S\n" ≠ str "_S\n" ++ str "body\n" := by
  constructor
  · decide
  · decide

/-- C1, amended: a non-marker line read while a block is open is appended
verbatim only when the open block has a derived key; when key derivation
returned null the line is discarded. Hence a keyed block's final text is
the exact concatenation of its marker line and all its body lines, while an
unresolved block's final text is exactly its marker line. -/
theorem body_lines_appended_iff_key_resolved :
    (∀ m body f, isMarkerLine m = true →
      sanitize_s_code_to_filename (pyLStrip m) = some f →
      (∀ l ∈ body, isMarkerLine l = false) →
      splitMap (m :: body) = [(f, [m ++ List.flatten body])]) ∧
    (∀ m body, isMarkerLine m = true →
      sanitize_s_code_to_filename (pyLStrip m) = none →
      (∀ l ∈ body, isMarkerLine l = false) →
      splitMap (m :: body) = [(str "UNKNOWN_0001.ini", [m])]) := by
  constructor
  · intro m body f hm hf hb
    unfold splitMap runSplit
    rw [List.foldl_cons]
    rw [process_line_marker initState m hm]
    rw [add_block_empty initState rfl]
    rw [hf]
    rw [foldl_append_body body _ f hb rfl]
    rw [add_block_keyed _ f (by simp) rfl (sanitize_ne_nil _ f hf)]
    simp [insertBlock, initState]
  · intro m body hm hf hb
    unfold splitMap runSplit
    rw [List.foldl_cons]
    rw [process_line_marker initState m hm]
    rw [add_block_empty initState rfl]
    rw [hf]
    rw [foldl_skip body _ hb rfl]
    rw [add_block_unresolved _ (by simp) rfl]
    have hu : unknownName 1 = str "UNKNOWN_0001.ini" := by decide
    simp [insertBlock, initState, hu]

/-- Witness for the amended C1 theorem at concrete inputs. -/
theorem body_lines_appended_iff_key_resolved_witness :
    splitMap [str "_S AB\n", str "x\n"] = [(str "AB.ini", [str "_S AB\nx\n"])] ∧
    splitMap [str "_S\n", str "x\n"] = [(str "UNKNOWN_0001.ini", [str "_S\n"])] := by
  constructor
  · have h := body_lines_appended_iff_key_resolved.1 (str "_S AB\n") [str "x\n"]
      (str "AB.ini") (by decide) (by decide) (by decide)
    rw [h]
    decide
  · exact body_lines_appended_iff_key_resolved.2 (str "_S\n") [str "x\n"]
      (by decide) (by decide) (by decide)

/-- C2: unresolved blocks get the synthetic key UNKNOWN_<seq>.ini with the
sequence zero-padded to 4 digits and starting at 1; the counter is read and
incremented inside add_block_to_map (finalize), while detecting a marker
line changes the counter only through finalizing the previous block; hence
unresolved blocks are numbered in finalization order, as in the run
producing UNKNOWN_0001.ini then UNKNOWN_0002.ini. -/
theorem unknown_counter_consumed_at_finalize :
    initState.unknown_index = 1 ∧
    unknownName 1 = str "UNKNOWN_0001.ini" ∧
    (∀ st : SplitState, st.current_block_lines ≠ [] →
      st.current_filename = none →
      (add_block_to_map st).unknown_index = st.unknown_index + 1 ∧
      (add_block_to_map st).file_to_blocks =
        insertBlock st.file_to_blocks (unknownName st.unknown_index)
          (List.flatten st.current_block_lines)) ∧
    (∀ st : SplitState, ∀ line, isMarkerLine line = true →
      (process_line st line).unknown_index =
        (add_block_to_map st).unknown_index) ∧
    splitMap [str "_S\n", str "_S !!!\n"] =
      [(str "UNKNOWN_0001.ini", [str "_S\n"]),
       (str "UNKNOWN_0002.ini", [str "_S !!!\n"])] := by
  refine ⟨rfl, by decide, ?_, ?_, by decide⟩
  · intro st h h2
    rw [add_block_unresolved st h h2]
    exact ⟨rfl, rfl⟩
  · intro st line hm
    rw [process_line_marker st line hm]

/-- Witness for the C2 theorem at concrete states. -/
theorem unknown_counter_consumed_at_finalize_witness :
    (add_block_to_map ⟨[str "_S\n"], none, 5, []⟩).unknown_index = 6 ∧
    (process_line ⟨[str "x\n"], some (str "AB.ini"), 3, []⟩
        (str "_S CD\n")).unknown_index =
      (add_block_to_map ⟨[str "x\n"], some (str "AB.ini"), 3, []⟩).unknown_index := by
  constructor
  · exact (unknown_counter_consumed_at_finalize.2.2.1
      ⟨[str "_S\n"], none, 5, []⟩ (by decide) rfl).1
  · exact unknown_counter_consumed_at_finalize.2.2.2.1
      ⟨[str "x\n"], some (str "AB.ini"), 3, []⟩ (str "_S CD\n") (by decide)

/-- C3: sanitize_s_code_to_filename behaves exactly as the spec words
deriveKey, with ".ini" appended to a derived key: split the trimmed line on
whitespace, null when fewer than 2 tokens, else take the second token, drop
hyphens, keep only characters in A-Z a-z 0-9 dot underscore hyphen, null
when empty; in particular the line "_S UL-US-10080 extra-tokens" yields the
file name ULUS10080.ini. -/
theorem deriveKey_refines_sanitize :
    (∀ s : List Char, sanitize_s_code_to_filename s =
      Option.map (fun k => k ++ str ".ini") (deriveKey (pyStrip s))) ∧
    sanitize_s_code_to_filename (str "_S UL-US-10080 extra-tokens") =
      some (str "ULUS10080.ini") := by
  constructor
  · intro s
    have hfun : ∀ c : Char,
        ((('A' ≤ c && c ≤ 'Z') || ('a' ≤ c && c ≤ 'z') ||
          ('0' ≤ c && c ≤ '9')) || (c = '.' || c = '_' || c = '-')) =
          isSafeChar c := by
      intro c
      unfold isSafeChar
      simp only [Bool.or_assoc]
    unfold sanitize_s_code_to_filename deriveKey
    cases hp : pySplitWs (pyStrip s) with
    | nil => simp
    | cons a tl =>
      cases tl with
      | nil => simp
      | cons gc tl2 =>
          have hlen : ¬ (a :: gc :: tl2).length < 2 := by
            simp
          simp only [if_neg hlen]
          have hgd : (a :: gc :: tl2).getD 1 [] = gc := rfl
          rw [hgd]
          rw [List.filter_congr (fun c _ => hfun c)]
          by_cases he : List.filter isSafeChar
              (List.filter (fun c => !(c = '-')) gc) = []
          · rw [if_pos he, if_pos he]
            rfl
          · rw [if_neg he, if_neg he]
            rfl
  · decide

/-- Witness for the refinement direction of C3 at a concrete line. -/
theorem deriveKey_refines_sanitize_witness :
    sanitize_s_code_to_filename (str "_S UL-US-10080 x") =
      Option.map (fun k => k ++ str ".ini")
        (deriveKey (pyStrip (str "_S UL-US-10080 x"))) := by
  exact deriveKey_refines_sanitize.1 (str "_S UL-US-10080 x")

/-- C4: within every output group no two stored block texts are identical;
inserting a text already present in its group leaves the mapping unchanged,
inserting a new text appends it at the end of its group, and a fresh key is
appended at the end of the key list; the two concrete runs show an exact
duplicate collapsing to one entry and two distinct blocks both kept in
first-seen order. -/
theorem dedup_within_group :
    (∀ lines, ∀ p ∈ splitMap lines, (Prod.snd p).Nodup) ∧
    (∀ m k b bs, lookupMap m k = some bs → b ∈ bs → insertBlock m k b = m) ∧
    (∀ m k b bs, lookupMap m k = some bs → b ∉ bs →
      lookupMap (insertBlock m k b) k = some (bs ++ [b])) ∧
    (∀ m k b, (insertBlock m k b).map Prod.fst =
      if k ∈ m.map Prod.fst then m.map Prod.fst
      else m.map Prod.fst ++ [k]) ∧
    splitMap [str "_S AB\n", str "x\n", str "_S AB\n", str "x\n"] =
      [(str "AB.ini", [str "_S AB\nx\n"])] ∧
    splitMap [str "_S AB\n", str "x\n", str "_S AB\n", str "y\n"] =
      [(str "AB.ini", [str "_S AB\nx\n", str "_S AB\ny\n"])] := by
  exact ⟨fun lines => splitMap_nodup lines, insertBlock_mem, insertBlock_append,
    insertBlock_keys, by decide, by decide⟩

/-- Witness for the C4 theorem at concrete mappings. -/
theorem dedup_within_group_witness :
    insertBlock [(str "AB.ini", [str "t1"])] (str "AB.ini") (str "t1") =
      [(str "AB.ini", [str "t1"])] ∧
    lookupMap (insertBlock [(str "AB.ini", [str "t1"])] (str "AB.ini")
        (str "t2")) (str "AB.ini") = some ([str "t1"] ++ [str "t2"]) ∧
    (str "AB.ini", [str "_S AB\nx\n"]) ∈
      splitMap [str "_S AB\n", str "x\n", str "_S AB\n", str "x\n"] := by
  refine ⟨?_, ?_, ?_⟩
  · exact dedup_within_group.2.1 _ _ _ [str "t1"] (by decide) (by decide)
  · exact dedup_within_group.2.2.1 _ _ _ [str "t1"] (by decide) (by decide)
  · rw [dedup_within_group.2.2.2.2.1]
    decide

/-- C5: when the input path does not exist, split_cheat_db returns the
FileNotFoundError before creating the output directory or writing any
file: the filesystem state is returned entirely unchanged together with
the named error. -/
theorem missing_input_is_fatal_before_output (fs : FS)
    (h : fs.inputExists = false) :
    split_cheat_db fs =
      (fs, Except.error (str "Input file not found: " ++ fs.inputPath)) := by
  unfold split_cheat_db
  simp [h]

/-- Witness for the C5 theorem at a concrete filesystem. -/
theorem missing_input_is_fatal_before_output_witness :
    split_cheat_db ⟨false, str "cheat.db", [], false, []⟩ =
      (⟨false, str "cheat.db", [], false, []⟩,
        Except.error (str "Input file not found: " ++ str "cheat.db")) :=
  missing_input_is_fatal_before_output ⟨false, str "cheat.db", [], false, []⟩ rfl

/-- C6: the concatenation of all finalized blocks is a sublist of the
input lines, so each input line position lands in at most one block; every
stored output text is the concatenation of one such block; and a prefix of
non-marker lines (the lines before the first marker line) leaves both the
block list and the output mapping exactly as if it were absent. -/
theorem lines_in_at_most_one_block :
    (∀ lines, List.Sublist (blockSegments lines).flatten lines) ∧
    (∀ lines, ∀ t ∈ allTexts (splitMap lines),
      ∃ seg ∈ blockSegments lines, t = seg.flatten) ∧
    (∀ pre rest, (∀ l ∈ pre, isMarkerLine l = false) →
      blockSegments (pre ++ rest) = blockSegments rest ∧
      splitMap (pre ++ rest) = splitMap rest) := by
  refine ⟨blockSegments_flatten_sublist, splitMap_texts_from_segments, ?_⟩
  intro pre rest h
  constructor
  · unfold blockSegments
    rw [List.foldl_append]
    rw [foldl_seg_skip pre segInit h rfl]
  · unfold splitMap runSplit
    rw [List.foldl_append]
    rw [foldl_skip pre initState h rfl]

/-- Witness for the C6 theorem at a concrete input with junk before the
first marker. -/
theorem lines_in_at_most_one_block_witness :
    splitMap [str "junk\n", str "_S AB\n", str "x\n"] =
      splitMap [str "_S AB\n", str "x\n"] ∧
    (str "AB.ini", [str "_S AB\nx\n"]) ∈ splitMap [str "_S AB\n", str "x\n"] := by
  constructor
  · exact (lines_in_at_most_one_block.2.2 [str "junk\n"]
      [str "_S AB\n", str "x\n"] (by decide)).2
  · have h := lines_in_at_most_one_block.2.1 [str "_S AB\n", str "x\n"]
    decide

/-- C7: with an existing input the run always succeeds, returning the
number of produced groups and creating the output directory; on empty
input, and more generally on input with no marker lines, the mapping is
empty, zero files are reported, the output directory is still created and
no file is written. -/
theorem split_total_on_any_lines (fs : FS) (h : fs.inputExists = true) :
    (split_cheat_db fs).2 = Except.ok (splitMap fs.inputLines).length ∧
    (split_cheat_db fs).1.outputDirExists = true ∧
    ((∀ l ∈ fs.inputLines, isMarkerLine l = false) →
      splitMap fs.inputLines = [] ∧
      (split_cheat_db fs).2 = Except.ok 0 ∧
      (split_cheat_db fs).1.files = fs.files) := by
  rw [split_cheat_db_ok fs h]
  refine ⟨rfl, rfl, ?_⟩
  intro hnm
  have hempty := splitMap_no_marker fs.inputLines hnm
  rw [hempty]
  exact ⟨rfl, rfl, rfl⟩

/-- Witness for the C7 theorem: a one-line input with no marker yields
zero files, an empty mapping and a created output directory. -/
theorem split_total_on_any_lines_witness :
    splitMap [str "a\n"] = [] ∧
    (split_cheat_db ⟨true, str "cheat.db", [str "a\n"], false, []⟩).2 =
      Except.ok 0 ∧
    (split_cheat_db ⟨true, str "cheat.db", [str "a\n"], false, []⟩).1.outputDirExists =
      true := by
  have h := split_total_on_any_lines ⟨true, str "cheat.db", [str "a\n"], false, []⟩ rfl
  have h2 := h.2.2 (by decide)
  exact ⟨h2.1, h2.2.1, h.2.1⟩

/-- C8: with the same input lines the run is deterministic (same count and
same written content per path), and running split_cheat_db again on the
filesystem produced by a first run leaves every file content unchanged,
because each output file is fully overwritten with content derived only
from the input. -/
theorem rerun_is_idempotent (fs : FS) (h : fs.inputExists = true) :
    (split_cheat_db (split_cheat_db fs).1).2 = (split_cheat_db fs).2 ∧
    (∀ k, lookupFs ((split_cheat_db (split_cheat_db fs).1).1).files k =
      lookupFs ((split_cheat_db fs).1).files k) ∧
    (∀ fs2 : FS, fs2.inputExists = true → fs2.inputLines = fs.inputLines →
      (split_cheat_db fs2).2 = (split_cheat_db fs).2 ∧
      ∀ k, lastWrite (splitMap fs2.inputLines) k =
        lastWrite (splitMap fs.inputLines) k) := by
  have e1 : split_cheat_db fs =
      ({ fs with
          outputDirExists := true
          files := writeAll fs.files (splitMap fs.inputLines) },
       Except.ok (splitMap fs.inputLines).length) := split_cheat_db_ok fs h
  have e2 : split_cheat_db ({ fs with
          outputDirExists := true
          files := writeAll fs.files (splitMap fs.inputLines) } : FS) =
      ({ fs with
          outputDirExists := true
          files := writeAll (writeAll fs.files (splitMap fs.inputLines))
            (splitMap fs.inputLines) },
       Except.ok (splitMap fs.inputLines).length) :=
    split_cheat_db_ok _ h
  refine ⟨?_, ?_, ?_⟩
  · rw [e1]
    dsimp only
    rw [e2]
  · intro k
    rw [e1]
    dsimp only
    rw [e2]
    dsimp only
    exact lookupFs_writeAll_twice _ _ k
  · intro fs2 h2 hlines
    rw [split_cheat_db_ok fs2 h2, e1]
    dsimp only
    rw [hlines]
    exact ⟨rfl, fun k => rfl⟩

/-- Witness for the C8 theorem at a concrete filesystem. -/
theorem rerun_is_idempotent_witness :
    (split_cheat_db
        (split_cheat_db ⟨true, str "cheat.db", [str "_S AB\n"], false, []⟩).1).2 =
      (split_cheat_db ⟨true, str "cheat.db", [str "_S AB\n"], false, []⟩).2 :=
  (rerun_is_idempotent ⟨true, str "cheat.db", [str "_S AB\n"], false, []⟩ rfl).1

/-- C9: every key stored in the mapping (hence every produced filename,
sanitized keys and UNKNOWN_<seq>.ini names alike) consists only of
characters in A-Z a-z 0-9 dot underscore hyphen, so it contains neither a
slash nor a backslash and names a file directly inside the output
directory. -/
theorem output_filenames_safe (lines : List (List Char)) :
    ∀ p ∈ splitMap lines, (Prod.fst p).all isSafeChar = true ∧
      ¬ '/' ∈ Prod.fst p ∧ ¬ '\\' ∈ Prod.fst p := by
  intro p hp
  have hall := foldl_safe lines initState (by simp [initState])
    (by simp [initState])
  have hsafe : (Prod.fst p).all isSafeChar = true := by
    unfold splitMap runSplit at hp
    exact add_block_safe _ hall.1 hall.2 p hp
  refine ⟨hsafe, ?_, ?_⟩
  · intro hmem
    have h1 := List.all_eq_true.mp hsafe _ hmem
    exact absurd h1 (by decide)
  · intro hmem
    have h1 := List.all_eq_true.mp hsafe _ hmem
    exact absurd h1 (by decide)

/-- Witness for the C9 theorem at a concrete run. -/
theorem output_filenames_safe_witness :
    (str "AB.ini").all isSafeChar = true ∧
      ¬ '/' ∈ str "AB.ini" ∧ ¬ '\\' ∈ str "AB.ini" :=
  output_filenames_safe [str "_S AB\n"] (str "AB.ini", [str "_S AB\n"])
    (by decide)

/-- C10: two marker lines whose codes sanitize to the same key send their
blocks to the same group: a run over two distinct marker lines deriving
the same key yields a single entry holding both blocks in order, and on
the concrete run with UL-US-10080 and ULUS10080 the repeated first block
is deduplicated against the group shared by both markers. -/
theorem same_sanitized_key_merges_groups :
    (∀ l1 l2 k, isMarkerLine l1 = true → isMarkerLine l2 = true →
      sanitize_s_code_to_filename (pyLStrip l1) = some k →
      sanitize_s_code_to_filename (pyLStrip l2) = some k →
      l1 ≠ l2 →
      splitMap [l1, l2] = [(k, [l1, l2])]) ∧
    sanitize_s_code_to_filename (pyLStrip (str "_S UL-US-10080\n")) =
      some (str "ULUS10080.ini") ∧
    sanitize_s_code_to_filename (pyLStrip (str "_S ULUS10080\n")) =
      some (str "ULUS10080.ini") ∧
    splitMap [str "_S UL-US-10080\n", str "_S ULUS10080\n",
        str "_S UL-US-10080\n"] =
      [(str "ULUS10080.ini",
        [str "_S UL-US-10080\n", str "_S ULUS10080\n"])] := by
  refine ⟨?_, by decide, by decide, by decide⟩
  intro l1 l2 k hm1 hm2 hk1 hk2 hne
  have hknil := sanitize_ne_nil _ k hk1
  have hne2 : ¬ l2 = l1 := fun hh => hne hh.symm
  unfold splitMap runSplit
  rw [List.foldl_cons, List.foldl_cons, List.foldl_nil]
  rw [process_line_marker initState l1 hm1, add_block_empty initState rfl, hk1]
  rw [process_line_marker _ l2 hm2]
  rw [hk2]
  rw [add_block_keyed _ k (by simp) rfl hknil]
  rw [add_block_keyed _ k (by simp) rfl hknil]
  simp [insertBlock, initState, hne2]

/-- Witness for the C10 theorem at two concrete marker lines. -/
theorem same_sanitized_key_merges_groups_witness :
    splitMap [str "_S AB\n", str "_S A-B\n"] =
      [(str "AB.ini", [str "_S AB\n", str "_S A-B\n"])] :=
  same_sanitized_key_merges_groups.1 (str "_S AB\n") (str "_S A-B\n")
    (str "AB.ini") (by decide) (by decide) (by decide) (by decide) (by decide)
